import Mathlib

/-!
Verification of the DELETE-ADJACENT-DUPLICATES / SELECT-DISTINCT rule scanner
(`src/app/app.py`).  The source text of a unit is modelled as `List Char`,
offsets as `Nat`, line numbers as `Int` (Python integers).  The handful of
regular expressions the scanner uses are simple enough that each is embedded
as a deterministic character-level matcher with exactly the backtracking
behaviour the Python `re` engine exhibits on these patterns (ordered
alternation, maximal munch where the following token cannot start with a
character of the repeated class, one-character advance of the search window
on failure, non-overlapping `finditer` resumption at the end of a match).
Character classes are the ASCII fragments of Python's `\w` and `\s`.
-/

set_option maxRecDepth 100000

namespace Rule727

/-- Python `\w` (ASCII fragment): letters, digits, underscore. -/
def isWordChar (c : Char) : Bool := c.isAlpha || c.isDigit || c == '_'

/-- Python `\s` (ASCII fragment). -/
def isSpaceChar (c : Char) : Bool :=
  c == ' ' || c == '\t' || c == '\n' || c == '\r' || c == '\x0b' || c == '\x0c'

/-- Case-insensitive literal match (`(?i)` on a keyword): consume `kw` from the
head of `s`, returning the remaining suffix. -/
def matchCI : List Char → List Char → Option (List Char)
  | [], s => some s
  | _ :: _, [] => none
  | k :: ks, c :: cs => if c.toLower == k.toLower then matchCI ks cs else none

/-- `\s+` (maximal munch; equivalent here because every token that follows a
`\s+` in the embedded patterns starts with a non-space character). -/
def dropSpaces1 (s : List Char) : Option (List Char) :=
  match s with
  | [] => none
  | c :: r => if isSpaceChar c then some (r.dropWhile isSpaceChar) else none

/-- `[^.]*\.`: the text before the first `.` and the rest after it;
fails when no `.` occurs. -/
def splitAtDot (s : List Char) : Option (List Char × List Char) :=
  match s.dropWhile (fun c => c != '.') with
  | [] => none
  | c :: rest =>
    if c == '.' then some (s.takeWhile (fun c => c != '.'), rest) else none

/-- The four capture slots of `TARGET_ITAB_TOKEN` (regex group dictionary). -/
structure TokenGroups where
  data : Option (List Char)
  fs : Option (List Char)
  dyn : Option (List Char)
  plain : Option (List Char)
deriving DecidableEq, Repr

def noGroups : TokenGroups := ⟨none, none, none, none⟩

/-- Alternative 4 of `TARGET_ITAB_TOKEN`: `(?P<plain>\w+)`. -/
def altPlain (s : List Char) : Option (TokenGroups × List Char) :=
  let w := s.takeWhile isWordChar
  if w.isEmpty then none
  else some ({ noGroups with plain := some w }, s.dropWhile isWordChar)

/-- Alternative 3: `\(\s*(?P<dyn>\w+)\s*\)`, falling back to `plain`. -/
def altDyn (s : List Char) : Option (TokenGroups × List Char) :=
  match s with
  | [] => altPlain s
  | c :: r1 =>
    if c == '(' then
      let r2 := r1.dropWhile isSpaceChar
      let w := r2.takeWhile isWordChar
      let r3 := (r2.dropWhile isWordChar).dropWhile isSpaceChar
      if w.isEmpty then altPlain s
      else
        match r3 with
        | [] => altPlain s
        | c2 :: r4 =>
          if c2 == ')' then some ({ noGroups with dyn := some w }, r4) else altPlain s
    else altPlain s

/-- Alternative 2: `<\s*(?P<fs>\w+)\s*>`, falling back to `dyn`. -/
def altFs (s : List Char) : Option (TokenGroups × List Char) :=
  match s with
  | [] => altDyn s
  | c :: r1 =>
    if c == '<' then
      let r2 := r1.dropWhile isSpaceChar
      let w := r2.takeWhile isWordChar
      let r3 := (r2.dropWhile isWordChar).dropWhile isSpaceChar
      if w.isEmpty then altDyn s
      else
        match r3 with
        | [] => altDyn s
        | c2 :: r4 =>
          if c2 == '>' then some ({ noGroups with fs := some w }, r4) else altDyn s
    else altDyn s

/-- Alternative 1: `DATA\s*\(\s*(?P<data>\w+)\s*\)`, falling back to `fs`. -/
def altData (s : List Char) : Option (TokenGroups × List Char) :=
  match matchCI "data".toList s with
  | none => altFs s
  | some r1 =>
    match r1.dropWhile isSpaceChar with
    | [] => altFs s
    | c :: r2 =>
      if c == '(' then
        let r3 := r2.dropWhile isSpaceChar
        let w := r3.takeWhile isWordChar
        let r4 := (r3.dropWhile isWordChar).dropWhile isSpaceChar
        if w.isEmpty then altFs s
        else
          match r4 with
          | [] => altFs s
          | c2 :: r5 =>
            if c2 == ')' then some ({ noGroups with data := some w }, r5) else altFs s
      else altFs s

/-- Leading `@?` of `TARGET_ITAB_TOKEN` (an unconsumed `@` can never start an
alternative, so consuming it when present is forced). -/
def stripAt (s : List Char) : List Char :=
  match s with
  | [] => []
  | c :: r => if c == '@' then r else c :: r

/-- `TARGET_ITAB_TOKEN`: `@?\s*(DATA\(w\) | <w> | \(w\) | w)` with the ordered
alternation of the source regex. -/
def matchTargetToken (s : List Char) : Option (TokenGroups × List Char) :=
  altData ((stripAt s).dropWhile isSpaceChar)

/-- `coalesce_group(m, ["data", "fs", "dyn", "plain"])`: the first truthy
capture (an empty capture is falsy in Python, though `\w+` never captures
an empty string). -/
def truthyOpt : Option (List Char) → Option (List Char)
  | none => none
  | some [] => none
  | some s => some s

def coalesce_group (g : TokenGroups) : Option (List Char) :=
  match truthyOpt g.data with
  | some v => some v
  | none =>
    match truthyOpt g.fs with
    | some v => some v
    | none =>
      match truthyOpt g.dyn with
      | some v => some v
      | none => truthyOpt g.plain

/-- `canon_name`: `raw.lower() if raw else None` (the empty string is falsy). -/
def canon_name : Option (List Char) → Option (List Char)
  | none => none
  | some [] => none
  | some s => some (s.map Char.toLower)

/-- `(?:APPENDING\s+TABLE)` tail of the fill-clause alternation. -/
def matchAppTable (s : List Char) : Option (List Char) := do
  let r1 ← matchCI "appending".toList s
  let r2 ← dropSpaces1 r1
  matchCI "table".toList r2

/-- `CORRESPONDING\s+FIELDS\s+OF\s+TABLE`. -/
def matchCorrTable (s : List Char) : Option (List Char) := do
  let r1 ← matchCI "corresponding".toList s
  let r2 ← dropSpaces1 r1
  let r3 ← matchCI "fields".toList r2
  let r4 ← dropSpaces1 r3
  let r5 ← matchCI "of".toList r4
  let r6 ← dropSpaces1 r5
  matchCI "table".toList r6

/-- `(?:(?:CORRESPONDING\s+FIELDS\s+OF\s+)?TABLE|APPENDING\s+TABLE)`:
the three match paths have pairwise distinct first letters (C/T/A), so the
regex engine's ordered backtracking reduces to this ordered choice. -/
def matchFill (s : List Char) : Option (List Char) :=
  match matchCorrTable s with
  | some r => some r
  | none =>
    match matchCI "table".toList s with
    | some r => some r
    | none => matchAppTable s

/-- One attempt of `INTO_TABLE_ITAB_RE` anchored at the head of `s`
(the leading `\b` is checked by the search driver). -/
def matchIntoAt (s : List Char) : Option TokenGroups := do
  let r1 ← matchCI "into".toList s
  let r2 ← dropSpaces1 r1
  let r3 ← matchFill r2
  let r4 ← dropSpaces1 r3
  let (g, _) ← matchTargetToken r4
  return g

/-- `\b` before a word character: the previous character (if any) is not a
word character. -/
def prevNonWord : Option Char → Bool
  | none => true
  | some c => !isWordChar c

/-- `\b` after a keyword: the next character (if any) is not a word character. -/
def wordBoundaryAfter : List Char → Bool
  | [] => true
  | c :: _ => !isWordChar c

/-- `INTO_TABLE_ITAB_RE.search`: leftmost match's capture groups. -/
def searchInto : Option Char → List Char → Option TokenGroups
  | _, [] => none
  | prev, c :: rest =>
    if prevNonWord prev then
      match matchIntoAt (c :: rest) with
      | some g => some g
      | none => searchInto (some c) rest
    else searchInto (some c) rest

/-- One attempt of `SELECT_DISTINCT_RE` (`\bSELECT\b\s+DISTINCT\b`) anchored
at the head of `s` (leading `\b` checked by the driver). -/
def matchSelDistAt (s : List Char) : Bool :=
  match matchCI "select".toList s with
  | none => false
  | some r1 =>
    wordBoundaryAfter r1 &&
      (match dropSpaces1 r1 with
       | none => false
       | some r2 =>
         match matchCI "distinct".toList r2 with
         | none => false
         | some r3 => wordBoundaryAfter r3)

def searchSelDist : Option Char → List Char → Bool
  | _, [] => false
  | prev, c :: rest =>
    if prevNonWord prev && matchSelDistAt (c :: rest) then true
    else searchSelDist (some c) rest

/-- `SELECT_DISTINCT_RE.search(sel_stmt) is not None`. -/
def hasDistinctIn (stmt : List Char) : Bool := searchSelDist none stmt

/-- One attempt of `STMT_SELECT_RE` (`\bSELECT\b[^.]*\.`) at the head of `s`;
returns the length of the match. -/
def matchSelectStmt (s : List Char) : Option Nat := do
  let r1 ← matchCI "select".toList s
  if wordBoundaryAfter r1 then
    let (_, rest) ← splitAtDot r1
    some (s.length - rest.length)
  else none

/-- A match of `STMT_DELETE_DUP_RE` recorded by `finditer`. -/
structure DelMatch where
  start : Nat
  stop : Nat
  groups : TokenGroups
deriving DecidableEq, Repr

instance : Inhabited DelMatch := ⟨⟨0, 0, noGroups⟩⟩

/-- One attempt of `STMT_DELETE_DUP_RE`
(`\bDELETE\s+ADJACENT\s+DUPLICATES\s+FROM\s+TOKEN[^.]*\.`) at the head of
`s`; returns the capture groups and the length of the match. -/
def matchDeleteStmt (s : List Char) : Option (TokenGroups × Nat) := do
  let r1 ← matchCI "delete".toList s
  let r2 ← dropSpaces1 r1
  let r3 ← matchCI "adjacent".toList r2
  let r4 ← dropSpaces1 r3
  let r5 ← matchCI "duplicates".toList r4
  let r6 ← dropSpaces1 r5
  let r7 ← matchCI "from".toList r6
  let r8 ← dropSpaces1 r7
  let (g, r9) ← matchTargetToken r8
  let (_, rest) ← splitAtDot r9
  return (g, s.length - rest.length)

/-- `STMT_SELECT_RE.finditer`: non-overlapping leftmost matches, resuming at
the end of each match (whose last character is always `.`), advancing one
character on failure.  Yields `(start, end, matched text)`.  The fuel only
bounds the recursion; `length + 1` is always enough since every step consumes
at least one character. -/
def selFinditer : Nat → Option Char → Nat → List Char → List (Nat × Nat × List Char)
  | 0, _, _, _ => []
  | _ + 1, _, _, [] => []
  | fuel + 1, prev, pos, c :: rest =>
    if prevNonWord prev then
      match matchSelectStmt (c :: rest) with
      | some len =>
        (pos, pos + len, (c :: rest).take len) ::
          selFinditer fuel (some '.') (pos + len) ((c :: rest).drop len)
      | none => selFinditer fuel (some c) (pos + 1) rest
    else selFinditer fuel (some c) (pos + 1) rest

/-- `STMT_DELETE_DUP_RE.finditer`. -/
def delFinditer : Nat → Option Char → Nat → List Char → List DelMatch
  | 0, _, _, _ => []
  | _ + 1, _, _, [] => []
  | fuel + 1, prev, pos, c :: rest =>
    if prevNonWord prev then
      match matchDeleteStmt (c :: rest) with
      | some (g, len) =>
        ⟨pos, pos + len, g⟩ :: delFinditer fuel (some '.') (pos + len) ((c :: rest).drop len)
      | none => delFinditer fuel (some c) (pos + 1) rest
    else delFinditer fuel (some c) (pos + 1) rest

def selectMatches (src : List Char) : List (Nat × Nat × List Char) :=
  selFinditer (src.length + 1) none 0 src

def dedupMatches (src : List Char) : List DelMatch :=
  delFinditer (src.length + 1) none 0 src

/-- The per-SELECT record of `scan_unit` (dict keys `itab`, `start`, `end`,
`has_distinct`, `stmt`; `end` is spelled `endPos`). -/
structure SelRec where
  itab : List Char
  start : Nat
  endPos : Nat
  has_distinct : Bool
  stmt : List Char
deriving DecidableEq, Repr

instance : Inhabited SelRec := ⟨⟨[], 0, 0, false, []⟩⟩

/-- Step 1 of `scan_unit`: SELECT statements that fill a table target. -/
def extractSelects (src : List Char) : List SelRec :=
  (selectMatches src).filterMap (fun m =>
    match searchInto none m.2.2 with
    | none => none
    | some g =>
      match canon_name (coalesce_group g) with
      | none => none
      | some name => some ⟨name, m.1, m.2.1, hasDistinctIn m.2.2, m.2.2⟩)

/-- `text.rfind("\n", 0, start)` adjusted as in `get_line_snippet`:
the index right after the previous newline, or 0. -/
def lineStartIdx (text : List Char) (start : Nat) : Nat :=
  start - ((text.take start).reverse.takeWhile (fun c => c != '\n')).length

/-- `text.find("\n", stop)` adjusted as in `get_line_snippet`:
the index of the next newline at or after `stop`, or `text.length`. -/
def lineEndIdx (text : List Char) (stop : Nat) : Nat :=
  stop + ((text.drop stop).takeWhile (fun c => c != '\n')).length

/-- `get_line_snippet(text, start, end)`: note the forward newline search
begins at the END offset of the match, not at its start. -/
def get_line_snippet (text : List Char) (start stop : Nat) : List Char :=
  (text.take (lineEndIdx text stop)).drop (lineStartIdx text start)

def countNL (s : List Char) : Nat := s.count '\n'

/-- `snippet_line.replace("\n", "\\n")`. -/
def escapeNL : List Char → List Char
  | [] => []
  | '\n' :: r => '\\' :: 'n' :: escapeNL r
  | c :: r => c :: escapeNL r

structure Finding where
  prog_name : List Char
  incl_name : List Char
  types : List Char
  blockname : Option (List Char)
  starting_line : Int
  ending_line : Int
  issues_type : List Char
  severity : List Char
  message : List Char
  suggestion : List Char
  snippet : List Char
deriving DecidableEq, Repr

instance : Inhabited Finding := ⟨⟨[], [], [], none, 0, 0, [], [], [], [], []⟩⟩

structure Unit where
  pgm_name : List Char
  inc_name : List Char
  type : List Char
  name : Option (List Char)
  start_line : Option Int
  end_line : Option Int
  code : Option (List Char)
  findings : Option (List Finding)
deriving DecidableEq, Repr

/-- `src = unit.code or ""`. -/
def unitSrc (u : Unit) : List Char := u.code.getD []

/-- `base_start = unit.start_line or 0` (`None or 0` and `0 or 0` both give 0). -/
def unitBase (u : Unit) : Int := u.start_line.getD 0

/-- `build_finding_for_pair` (a closure over `unit`, `src` and `base_start`,
which are derived from `unit` exactly as here; `delete_start`/`delete_end`
are accepted and ignored, as in the source). -/
def build_finding_for_pair (u : Unit) (itab_name : List Char)
    (select_start select_end delete_start delete_end : Nat) : Finding :=
  let src := unitSrc u
  let base_start := unitBase u
  let stmt_start := select_start
  let stmt_end := select_end
  let line_in_block : Nat := countNL (src.take stmt_start) + 1
  let snippet_line := get_line_snippet src stmt_start stmt_end
  let snippet_line_count : Nat := countNL snippet_line + 1
  let starting_line_abs : Int := base_start + (line_in_block : Int)
  let ending_line_abs : Int := base_start + (line_in_block : Int) + (snippet_line_count : Int)
  { prog_name := u.pgm_name
    incl_name := u.inc_name
    types := u.type
    blockname := u.name
    starting_line := starting_line_abs
    ending_line := ending_line_abs
    issues_type := "UseSelectDistinct".toList
    severity := "error".toList
    message := "SELECT fills '".toList ++ itab_name
      ++ "' followed by DELETE ADJACENT DUPLICATES. Prefer SELECT DISTINCT.".toList
    suggestion := "* Replace the SELECT that fills `".toList ++ itab_name
      ++ "` with DISTINCT and remove the DELETE step.\n\nExample rewrite:\n  SELECT DISTINCT ...\n    INTO TABLE ".toList
      ++ itab_name ++ ".\n  \" DELETE ADJACENT DUPLICATES FROM ".toList ++ itab_name
      ++ ".  \" <-- remove\n".toList
    snippet := escapeNL snippet_line }

/-- The `prior`-selection loop of `scan_unit` (step 2), with the running
`prior` accumulator made explicit. -/
def pickPriorGo (d_itab : List Char) (d_start : Nat) :
    Option SelRec → List SelRec → Option SelRec
  | prior, [] => prior
  | prior, s :: rest =>
    if s.itab = d_itab ∧ s.endPos < d_start then
      match prior with
      | none => pickPriorGo d_itab d_start (some s) rest
      | some p =>
        if s.endPos > p.endPos then pickPriorGo d_itab d_start (some s) rest
        else pickPriorGo d_itab d_start (some p) rest
    else pickPriorGo d_itab d_start prior rest

def pickPrior (selects : List SelRec) (d_itab : List Char) (d_start : Nat) : Option SelRec :=
  pickPriorGo d_itab d_start none selects

/-- The body of the `for d in STMT_DELETE_DUP_RE.finditer(src)` loop:
the finding contributed by one DELETE match, if any. -/
def findingForDedup (u : Unit) (selects : List SelRec) (dm : DelMatch) : Option Finding :=
  match canon_name (coalesce_group dm.groups) with
  | none => none
  | some d_itab =>
    match pickPrior selects d_itab dm.start with
    | none => none
    | some prior =>
      if prior.has_distinct then none
      else some (build_finding_for_pair u d_itab prior.start prior.endPos dm.start dm.stop)

def scanFindings (u : Unit) : List Finding :=
  (dedupMatches (unitSrc u)).filterMap (findingForDedup u (extractSelects (unitSrc u)))

/-- `scan_unit`: copy the unit, attach the (possibly empty) findings list. -/
def scan_unit (u : Unit) : Unit := { u with findings := some (scanFindings u) }

/-- Python truthiness of `res.findings` (`None` and `[]` are falsy). -/
def findingsTruthy : Option (List Finding) → Bool
  | some (_ :: _) => true
  | _ => false

/-- `/remediate-array`: keep only units with findings, input order. -/
def scan_rule_array (units : List Unit) : List Unit :=
  units.foldl (fun results u =>
    let res := scan_unit u
    if findingsTruthy res.findings then results ++ [res] else results) []

/-- `/remediate`: always return the scanned unit. -/
def scan_rule_single (u : Unit) : Unit := scan_unit u

/-- Instrumented variant of `scanFindings` that tags each finding with the
start offset of the DELETE statement that triggered it. -/
def scanAnnotated (u : Unit) : List (Nat × Finding) :=
  (dedupMatches (unitSrc u)).filterMap (fun dm =>
    (findingForDedup u (extractSelects (unitSrc u)) dm).map (fun f => (dm.start, f)))

/-- Modelled from the spec: the *single physical line* containing index `i`
(backward to the previous newline, forward from the same index `i` to the
next newline) — the snippet shape the specification describes. -/
def physLineAt (text : List Char) (i : Nat) : List Char :=
  (text.take (lineEndIdx text i)).drop (lineStartIdx text i)

/-- The four accepted spellings of a target token around one identifier. -/
def shapeData (w : List Char) : List Char := "DATA(".toList ++ w ++ ")".toList

def shapeFs (w : List Char) : List Char := "<".toList ++ w ++ ">".toList

def shapeDyn (w : List Char) : List Char := "(".toList ++ w ++ ")".toList

def shapePlain (w : List Char) : List Char := w

/-- Canonical-target resolution of a whole token, as the scanner performs it. -/
def tokenResolve (s : List Char) : Option (List Char) :=
  match matchTargetToken s with
  | none => none
  | some (g, _) => canon_name (coalesce_group g)

/-- Substring test (for "the suggestion mentions the target"). -/
def containsSeq (needle : List Char) : List Char → Bool
  | [] => needle.isEmpty
  | c :: r => needle.isPrefixOf (c :: r) || containsSeq needle r

/-! ## The `prior`-selection loop: characterisation -/

/-- `betterOf acc s`: the accumulator after one eligible loop iteration. -/
def betterOf (acc : Option SelRec) (s : SelRec) : SelRec :=
  match acc with
  | none => s
  | some p => if s.endPos > p.endPos then s else p

lemma pickPriorGo_cons (d_itab : List Char) (d_start : Nat) (acc : Option SelRec)
    (s : SelRec) (rest : List SelRec) :
    pickPriorGo d_itab d_start acc (s :: rest) =
      if s.itab = d_itab ∧ s.endPos < d_start then
        pickPriorGo d_itab d_start (some (betterOf acc s)) rest
      else pickPriorGo d_itab d_start acc rest := by
  cases acc with
  | none => simp only [pickPriorGo, betterOf]
  | some p =>
    simp only [pickPriorGo, betterOf]
    split_ifs <;> rfl

lemma pickPriorGo_acc_spec (d_itab : List Char) (d_start : Nat) :
    ∀ (l : List SelRec) (p : SelRec),
      ∃ c, pickPriorGo d_itab d_start (some p) l = some c ∧
        (c = p ∨ (c ∈ l ∧ c.itab = d_itab ∧ c.endPos < d_start)) ∧
        p.endPos ≤ c.endPos ∧
        (∀ x ∈ l, x.itab = d_itab → x.endPos < d_start → x.endPos ≤ c.endPos) := by
  intro l
  induction l with
  | nil =>
    intro p
    exact ⟨p, rfl, Or.inl rfl, le_refl _, by simp⟩
  | cons s rest ih =>
    intro p
    rw [pickPriorGo_cons]
    by_cases h : s.itab = d_itab ∧ s.endPos < d_start
    · rw [if_pos h]
      obtain ⟨c, hc, hor, hle, hmax⟩ := ih (betterOf (some p) s)
      have hbp : p.endPos ≤ (betterOf (some p) s).endPos := by
        simp only [betterOf]
        split_ifs with hgt
        · exact le_of_lt hgt
        · exact le_refl _
      have hbs : s.endPos ≤ (betterOf (some p) s).endPos := by
        simp only [betterOf]
        split_ifs with hgt
        · exact le_refl _
        · exact le_of_not_lt hgt
      refine ⟨c, hc, ?_, le_trans hbp hle, ?_⟩
      · rcases hor with he | hm
        · subst he
          simp only [betterOf]
          split_ifs
          · exact Or.inr ⟨List.mem_cons_self _ _, h⟩
          · exact Or.inl rfl
        · exact Or.inr ⟨List.mem_cons_of_mem _ hm.1, hm.2⟩
      · intro x hx h1 h2
        rcases List.mem_cons.mp hx with hxs | hxr
        · subst hxs
          exact le_trans hbs hle
        · exact hmax x hxr h1 h2
    · rw [if_neg h]
      obtain ⟨c, hc, hor, hle, hmax⟩ := ih p
      refine ⟨c, hc, ?_, hle, ?_⟩
      · rcases hor with he | hm
        · exact Or.inl he
        · exact Or.inr ⟨List.mem_cons_of_mem _ hm.1, hm.2⟩
      · intro x hx h1 h2
        rcases List.mem_cons.mp hx with hxs | hxr
        · subst hxs
          exact absurd ⟨h1, h2⟩ h
        · exact hmax x hxr h1 h2

lemma pickPrior_none_iff (selects : List SelRec) (d_itab : List Char) (d_start : Nat) :
    pickPrior selects d_itab d_start = none ↔
      ∀ c ∈ selects, ¬(c.itab = d_itab ∧ c.endPos < d_start) := by
  induction selects with
  | nil => simp [pickPrior, pickPriorGo]
  | cons s rest ih =>
    rw [pickPrior, pickPriorGo_cons]
    by_cases h : s.itab = d_itab ∧ s.endPos < d_start
    · rw [if_pos h]
      obtain ⟨c, hc, -, -, -⟩ := pickPriorGo_acc_spec d_itab d_start rest (betterOf none s)
      rw [hc]
      simp only [List.mem_cons]
      constructor
      · intro habs
        exact absurd habs (by simp)
      · intro hall
        exact absurd h (hall s (Or.inl rfl))
    · rw [if_neg h]
      rw [show pickPriorGo d_itab d_start none rest = pickPrior rest d_itab d_start from rfl]
      rw [ih]
      constructor
      · intro hall c hc
        rcases List.mem_cons.mp hc with hcs | hcr
        · subst hcs; exact h
        · exact hall c hcr
      · intro hall c hc
        exact hall c (List.mem_cons_of_mem _ hc)

lemma pickPrior_some_spec (selects : List SelRec) (d_itab : List Char) (d_start : Nat)
    (c : SelRec) (hc : pickPrior selects d_itab d_start = some c) :
    c ∈ selects ∧ c.itab = d_itab ∧ c.endPos < d_start ∧
      ∀ x ∈ selects, x.itab = d_itab → x.endPos < d_start → x.endPos ≤ c.endPos := by
  induction selects with
  | nil => exact absurd hc (by simp [pickPrior, pickPriorGo])
  | cons s rest ih =>
    rw [pickPrior, pickPriorGo_cons] at hc
    by_cases h : s.itab = d_itab ∧ s.endPos < d_start
    · rw [if_pos h] at hc
      obtain ⟨c', hc', hor, hle, hmax⟩ := pickPriorGo_acc_spec d_itab d_start rest (betterOf none s)
      rw [hc'] at hc
      obtain rfl : c' = c := Option.some.inj hc
      have hbs : betterOf none s = s := rfl
      rw [hbs] at hor hle
      refine ⟨?_, ?_, ?_, ?_⟩
      · rcases hor with he | hm
        · subst he; exact List.mem_cons_self _ _
        · exact List.mem_cons_of_mem _ hm.1
      · rcases hor with he | hm
        · subst he; exact h.1
        · exact hm.2.1
      · rcases hor with he | hm
        · subst he; exact h.2
        · exact hm.2.2
      · intro x hx h1 h2
        rcases List.mem_cons.mp hx with hxs | hxr
        · subst hxs; exact hle
        · exact hmax x hxr h1 h2
    · rw [if_neg h] at hc
      obtain ⟨hmem, h1, h2, hmax⟩ := ih hc
      refine ⟨List.mem_cons_of_mem _ hmem, h1, h2, ?_⟩
      intro x hx hx1 hx2
      rcases List.mem_cons.mp hx with hxs | hxr
      · subst hxs; exact absurd ⟨hx1, hx2⟩ h
      · exact hmax x hxr hx1 hx2

/-- C1: for every unit and every deduplication statement `dm` found in its
text, the scanner pairs `dm` with the query candidate having the same
canonical target and the maximum end offset among those ending strictly
before `dm`'s start; if no such candidate exists, or if the chosen candidate
has the distinct flag set, no Finding is produced for `dm`. -/
theorem C1_pairing (u : Unit) (dm : DelMatch)
    (hdm : dm ∈ dedupMatches (unitSrc u)) (d_itab : List Char)
    (hname : canon_name (coalesce_group dm.groups) = some d_itab) :
    (pickPrior (extractSelects (unitSrc u)) d_itab dm.start = none →
        findingForDedup u (extractSelects (unitSrc u)) dm = none ∧
        ∀ c ∈ extractSelects (unitSrc u), ¬(c.itab = d_itab ∧ c.endPos < dm.start)) ∧
    (∀ c, pickPrior (extractSelects (unitSrc u)) d_itab dm.start = some c →
        c ∈ extractSelects (unitSrc u) ∧ c.itab = d_itab ∧ c.endPos < dm.start ∧
        (∀ x ∈ extractSelects (unitSrc u), x.itab = d_itab → x.endPos < dm.start →
            x.endPos ≤ c.endPos) ∧
        (c.has_distinct = true → findingForDedup u (extractSelects (unitSrc u)) dm = none) ∧
        (c.has_distinct = false →
          findingForDedup u (extractSelects (unitSrc u)) dm =
            some (build_finding_for_pair u d_itab c.start c.endPos dm.start dm.stop))) := by
  constructor
  · intro hnone
    refine ⟨?_, (pickPrior_none_iff _ _ _).mp hnone⟩
    simp [findingForDedup, hname, hnone]
  · intro c hcsome
    obtain ⟨hmem, h1, h2, hmax⟩ := pickPrior_some_spec _ _ _ _ hcsome
    refine ⟨hmem, h1, h2, hmax, ?_, ?_⟩
    · intro hd
      simp [findingForDedup, hname, hcsome, hd]
    · intro hd
      simp [findingForDedup, hname, hcsome, hd]

/-! ## Where findings come from -/

/-- Every extracted candidate record carries the span, statement text and
distinct flag of some SELECT-statement match. -/
lemma extractSelects_fields {src : List Char} {c : SelRec} (hc : c ∈ extractSelects src) :
    ∃ m ∈ selectMatches src, c.start = m.1 ∧ c.endPos = m.2.1 ∧ c.stmt = m.2.2 ∧
      c.has_distinct = hasDistinctIn m.2.2 := by
  simp only [extractSelects] at hc
  obtain ⟨m, hm, hsome⟩ := List.mem_filterMap.mp hc
  refine ⟨m, hm, ?_⟩
  split at hsome
  · exact absurd hsome (by simp)
  · split at hsome
    · exact absurd hsome (by simp)
    · obtain rfl := Option.some.inj hsome
      exact ⟨rfl, rfl, rfl, rfl⟩

/-- Every finding of `scanFindings` is built, by `build_finding_for_pair`,
from a non-distinct extracted candidate and a deduplication match. -/
lemma finding_origin (u : Unit) (f : Finding) (hf : f ∈ scanFindings u) :
    ∃ c ∈ extractSelects (unitSrc u), c.has_distinct = false ∧
      ∃ dm ∈ dedupMatches (unitSrc u),
        pickPrior (extractSelects (unitSrc u)) c.itab dm.start = some c ∧
        f = build_finding_for_pair u c.itab c.start c.endPos dm.start dm.stop := by
  simp only [scanFindings] at hf
  obtain ⟨dm, hdm, hsome⟩ := List.mem_filterMap.mp hf
  unfold findingForDedup at hsome
  split at hsome
  · exact absurd hsome (by simp)
  · rename_i d_itab hcn
    split at hsome
    · exact absurd hsome (by simp)
    · rename_i prior hpp
      split at hsome
      · exact absurd hsome (by simp)
      · rename_i hd
        obtain ⟨hmem, hit, -, -⟩ := pickPrior_some_spec _ _ _ _ hpp
        obtain rfl := Option.some.inj hsome
        rw [← hit] at hpp
        exact ⟨prior, hmem, by simpa using hd, dm, hdm, hpp, by rw [hit]⟩

/-- C5: a query statement that requests distinct rows never yields a Finding:
every produced Finding originates from a candidate whose statement text does
not contain the `SELECT DISTINCT` modifier. -/
theorem C5_distinct_suppresses (u : Unit) (f : Finding) (hf : f ∈ scanFindings u) :
    ∃ c ∈ extractSelects (unitSrc u), hasDistinctIn c.stmt = false ∧
      ∃ dstart dend, f = build_finding_for_pair u c.itab c.start c.endPos dstart dend := by
  obtain ⟨c, hmem, hdist, dm, hdm, -, heq⟩ := finding_origin u f hf
  obtain ⟨m, -, -, -, hstmt, hflag⟩ := extractSelects_fields hmem
  refine ⟨c, hmem, ?_, dm.start, dm.stop, heq⟩
  rw [hstmt, ← hflag]
  exact hdist

/-! ## Concrete example units -/

def exC2unit : Unit :=
  { pgm_name := "ZREPORT".toList, inc_name := "ZINC".toList, type := "PROG".toList,
    name := some "BLOCK1".toList, start_line := some 100, end_line := some 110,
    code := some ("SELECT * FROM t INTO TABLE @lt_tab.\nDELETE ADJACENT DUPLICATES FROM lt_tab COMPARING ALL FIELDS.".toList),
    findings := none }

/-- C2: the spec's example scenario — unit offset 100, a SELECT filling
`lt_tab` on line 1 and a deduplication on line 2 — produces exactly one
Finding classified `UseSelectDistinct`, severity `error`, starting line 101,
snippet equal to the text of line 1, and a suggestion mentioning `lt_tab`. -/
theorem C2_example :
    (scanFindings exC2unit).length = 1 ∧
    (scanFindings exC2unit).headI.issues_type = "UseSelectDistinct".toList ∧
    (scanFindings exC2unit).headI.severity = "error".toList ∧
    (scanFindings exC2unit).headI.starting_line = 101 ∧
    (scanFindings exC2unit).headI.snippet = "SELECT * FROM t INTO TABLE @lt_tab.".toList ∧
    containsSeq "lt_tab".toList (scanFindings exC2unit).headI.suggestion = true := by
  decide

def exC1unit : Unit :=
  { pgm_name := "ZP1".toList, inc_name := "ZI1".toList, type := "PROG".toList,
    name := none, start_line := some 10, end_line := some 20,
    code := some ("SELECT * FROM a INTO TABLE @itab1.\nDELETE ADJACENT DUPLICATES FROM itab1.".toList),
    findings := none }

def dmC1 : DelMatch := (dedupMatches (unitSrc exC1unit)).headI

theorem C1_pairing_witness :
    (dmC1 ∈ dedupMatches (unitSrc exC1unit)) ∧
    canon_name (coalesce_group dmC1.groups) = some "itab1".toList ∧
    ((pickPrior (extractSelects (unitSrc exC1unit)) "itab1".toList dmC1.start = none →
        findingForDedup exC1unit (extractSelects (unitSrc exC1unit)) dmC1 = none ∧
        ∀ c ∈ extractSelects (unitSrc exC1unit),
          ¬(c.itab = "itab1".toList ∧ c.endPos < dmC1.start)) ∧
      (∀ c, pickPrior (extractSelects (unitSrc exC1unit)) "itab1".toList dmC1.start = some c →
        c ∈ extractSelects (unitSrc exC1unit) ∧ c.itab = "itab1".toList ∧
        c.endPos < dmC1.start ∧
        (∀ x ∈ extractSelects (unitSrc exC1unit), x.itab = "itab1".toList →
            x.endPos < dmC1.start → x.endPos ≤ c.endPos) ∧
        (c.has_distinct = true →
          findingForDedup exC1unit (extractSelects (unitSrc exC1unit)) dmC1 = none) ∧
        (c.has_distinct = false →
          findingForDedup exC1unit (extractSelects (unitSrc exC1unit)) dmC1 =
            some (build_finding_for_pair exC1unit "itab1".toList c.start c.endPos
              dmC1.start dmC1.stop)))) :=
  ⟨by decide, by decide, C1_pairing exC1unit dmC1 (by decide) "itab1".toList (by decide)⟩

theorem C5_distinct_suppresses_witness :
    ((scanFindings exC1unit).headI ∈ scanFindings exC1unit) ∧
    (∃ c ∈ extractSelects (unitSrc exC1unit), hasDistinctIn c.stmt = false ∧
      ∃ dstart dend, (scanFindings exC1unit).headI =
        build_finding_for_pair exC1unit c.itab c.start c.endPos dstart dend) :=
  ⟨by decide, C5_distinct_suppresses exC1unit (scanFindings exC1unit).headI (by decide)⟩

/-! ## Batch and single-unit semantics, totality -/

lemma scan_rule_array_go (l : List Unit) (acc : List Unit) :
    l.foldl (fun results u =>
        let res := scan_unit u
        if findingsTruthy res.findings then results ++ [res] else results) acc =
      acc ++ (l.map scan_unit).filter (fun r => findingsTruthy r.findings) := by
  induction l generalizing acc with
  | nil => simp
  | cons u rest ih =>
    simp only [List.foldl_cons, List.map_cons, List.filter_cons]
    by_cases h : findingsTruthy (scan_unit u).findings
    · simp only [h, if_true, ih]
      simp
    · simp only [h, if_false, ih]
      simp

/-- C7: batch scanning returns exactly the units that produced at least one
Finding, in input order (a filter of the scanned units), and single-unit
scanning always returns the unit — all header fields preserved — with a
findings collection attached (empty when no violation is found). -/
theorem C7_batch_semantics :
    (∀ units : List Unit,
        scan_rule_array units =
          (units.map scan_unit).filter (fun r => findingsTruthy r.findings)) ∧
    (∀ u : Unit,
        scan_rule_single u = scan_unit u ∧
        (scan_unit u).pgm_name = u.pgm_name ∧
        (scan_unit u).inc_name = u.inc_name ∧
        (scan_unit u).type = u.type ∧
        (scan_unit u).name = u.name ∧
        (scan_unit u).start_line = u.start_line ∧
        (scan_unit u).end_line = u.end_line ∧
        (scan_unit u).code = u.code ∧
        (scan_unit u).findings = some (scanFindings u)) := by
  constructor
  · intro units
    simpa using scan_rule_array_go units []
  · intro u
    exact ⟨rfl, rfl, rfl, rfl, rfl, rfl, rfl, rfl, rfl⟩

/-- C8: the core scan is total: every unit (in particular one with empty or
absent source text) is mapped to the same unit with a well-defined, possibly
empty findings list attached; absence of matches yields zero findings, never
a fault. -/
theorem C8_totality (u : Unit) :
    scan_unit u = { u with findings := some (scanFindings u) } ∧
    ((u.code = none ∨ u.code = some []) → scanFindings u = []) := by
  refine ⟨rfl, ?_⟩
  intro h
  have hsrc : unitSrc u = [] := by
    rcases h with h | h <;> simp [unitSrc, h]
  simp only [scanFindings, hsrc]
  rfl

def exC8unit : Unit :=
  { pgm_name := "ZP8".toList, inc_name := "ZI8".toList, type := "FUNC".toList,
    name := none, start_line := none, end_line := none, code := none, findings := none }

theorem C8_totality_witness :
    (exC8unit.code = none ∨ exC8unit.code = some []) ∧ scanFindings exC8unit = [] :=
  ⟨Or.inl rfl, (C8_totality exC8unit).2 (Or.inl rfl)⟩

/-! ## Unconsumed candidates -/

/-- `build_finding_for_pair` never reads its `delete_start`/`delete_end`
arguments. -/
lemma build_ignores_delete (u : Unit) (itab : List Char) (a b d1 d2 : Nat) :
    build_finding_for_pair u itab a b d1 d2 = build_finding_for_pair u itab a b 0 0 := rfl

/-- C9: pairing does not consume candidates: with a single (non-distinct)
query candidate and any number of deduplication statements on its target all
starting after it, every deduplication statement produces its own Finding and
all of them are the same record, anchored at the one query statement. -/
theorem C9_unconsumed (u : Unit) (c : SelRec)
    (hsel : extractSelects (unitSrc u) = [c]) (hd : c.has_distinct = false)
    (hall : ∀ dm ∈ dedupMatches (unitSrc u),
        canon_name (coalesce_group dm.groups) = some c.itab ∧ c.endPos < dm.start) :
    scanFindings u = List.replicate (dedupMatches (unitSrc u)).length
      (build_finding_for_pair u c.itab c.start c.endPos 0 0) := by
  simp only [scanFindings, hsel]
  have key : ∀ dms : List DelMatch,
      (∀ dm ∈ dms, canon_name (coalesce_group dm.groups) = some c.itab ∧
        c.endPos < dm.start) →
      dms.filterMap (findingForDedup u [c]) =
        List.replicate dms.length (build_finding_for_pair u c.itab c.start c.endPos 0 0) := by
    intro dms
    induction dms with
    | nil => intro _; rfl
    | cons dm rest ih =>
      intro h
      obtain ⟨hcn, hlt⟩ := h dm (List.mem_cons_self _ _)
      have hpick : pickPrior [c] c.itab dm.start = some c := by
        rw [pickPrior, pickPriorGo_cons, if_pos ⟨rfl, hlt⟩]
        rfl
      have hstep : findingForDedup u [c] dm =
          some (build_finding_for_pair u c.itab c.start c.endPos 0 0) := by
        simp [findingForDedup, hcn, hpick, hd, build_ignores_delete]
      simp only [List.filterMap_cons, hstep, List.length_cons, List.replicate_succ]
      rw [ih (fun x hx => h x (List.mem_cons_of_mem _ hx))]
  exact key _ hall

def exC9unit : Unit :=
  { pgm_name := "ZP9".toList, inc_name := "ZI9".toList, type := "PROG".toList,
    name := none, start_line := some 0, end_line := some 3,
    code := some ("SELECT * FROM a INTO TABLE @lt_t9.\nDELETE ADJACENT DUPLICATES FROM lt_t9.\nDELETE ADJACENT DUPLICATES FROM LT_T9.".toList),
    findings := none }

def cC9 : SelRec := (extractSelects (unitSrc exC9unit)).headI

theorem C9_unconsumed_witness :
    (extractSelects (unitSrc exC9unit) = [cC9]) ∧
    cC9.has_distinct = false ∧
    (∀ dm ∈ dedupMatches (unitSrc exC9unit),
        canon_name (coalesce_group dm.groups) = some cC9.itab ∧ cC9.endPos < dm.start) ∧
    (dedupMatches (unitSrc exC9unit)).length = 2 ∧
    scanFindings exC9unit = List.replicate (dedupMatches (unitSrc exC9unit)).length
      (build_finding_for_pair exC9unit cC9.itab cC9.start cC9.endPos 0 0) :=
  ⟨by decide, by decide, by decide, by decide,
    C9_unconsumed exC9unit cC9 (by decide) (by decide) (by decide)⟩

/-! ## Length bookkeeping for the matchers -/

lemma dropWhile_length_le (p : Char → Bool) : ∀ l : List Char, (l.dropWhile p).length ≤ l.length := by
  intro l
  induction l with
  | nil => exact le_refl _
  | cons a l ih =>
    rw [List.dropWhile_cons]
    split_ifs
    · exact le_trans ih (Nat.le_succ _)
    · exact le_refl _

lemma pair_some_inj {α β : Type} {a c : α} {b d : β}
    (h : some (a, b) = some (c, d)) : a = c ∧ b = d := by
  have he := Option.some.inj h
  exact ⟨congrArg Prod.fst he, congrArg Prod.snd he⟩

lemma matchCI_length : ∀ {ks s r : List Char}, matchCI ks s = some r →
    s.length = ks.length + r.length := by
  intro ks
  induction ks with
  | nil =>
    intro s r h
    obtain rfl : s = r := Option.some.inj h
    simp
  | cons k ks ih =>
    intro s r h
    cases s with
    | nil => exact absurd h (by simp [matchCI])
    | cons c cs =>
      simp only [matchCI] at h
      split_ifs at h
      have := ih h
      simp only [List.length_cons]
      omega

lemma matchCI_suffix : ∀ {ks s r : List Char}, matchCI ks s = some r →
    ∃ pre, s = pre ++ r := by
  intro ks
  induction ks with
  | nil =>
    intro s r h
    obtain rfl : s = r := Option.some.inj h
    exact ⟨[], rfl⟩
  | cons k ks ih =>
    intro s r h
    cases s with
    | nil => exact absurd h (by simp [matchCI])
    | cons c cs =>
      simp only [matchCI] at h
      split_ifs at h
      obtain ⟨pre, hpre⟩ := ih h
      exact ⟨c :: pre, by rw [List.cons_append, ← hpre]⟩

lemma dropSpaces1_length {s r : List Char} (h : dropSpaces1 s = some r) :
    r.length < s.length := by
  cases s with
  | nil => exact absurd h (by simp [dropSpaces1])
  | cons c cs =>
    simp only [dropSpaces1] at h
    split_ifs at h
    obtain rfl : cs.dropWhile isSpaceChar = r := Option.some.inj h
    exact lt_of_le_of_lt (dropWhile_length_le _ cs) (by simp)

lemma splitAtDot_length {s mid rest : List Char} (h : splitAtDot s = some (mid, rest)) :
    s.length = mid.length + 1 + rest.length := by
  unfold splitAtDot at h
  split at h
  · exact absurd h (by simp)
  · rename_i c r hdrop
    split_ifs at h
    obtain ⟨hm, hr⟩ := pair_some_inj h
    have hs := List.takeWhile_append_dropWhile (fun c => c != '.') s
    rw [hdrop] at hs
    have hlen := congrArg List.length hs
    simp only [List.length_append, List.length_cons] at hlen
    rw [← hm, ← hr]
    omega

lemma matchSelectStmt_len {s : List Char} {len : Nat} (h : matchSelectStmt s = some len) :
    1 ≤ len ∧ len ≤ s.length := by
  unfold matchSelectStmt at h
  rw [Option.bind_eq_bind, Option.bind_eq_some] at h
  obtain ⟨r1, hm, h⟩ := h
  split at h
  · rw [Option.bind_eq_bind, Option.bind_eq_some] at h
    obtain ⟨⟨mid, rest⟩, hsp, h⟩ := h
    have hlen := Option.some.inj h
    have h1 := matchCI_length hm
    have h2 := splitAtDot_length hsp
    have h6 : ("select".toList).length = 6 := rfl
    omega
  · exact absurd h (by simp)

lemma altPlain_length {s : List Char} {g : TokenGroups} {r : List Char}
    (h : altPlain s = some (g, r)) : r.length ≤ s.length := by
  simp only [altPlain] at h
  split_ifs at h
  obtain ⟨-, hr⟩ := pair_some_inj h
  rw [← hr]
  exact dropWhile_length_le _ s

lemma altDyn_length {s : List Char} {g : TokenGroups} {r : List Char}
    (h : altDyn s = some (g, r)) : r.length ≤ s.length := by
  cases s with
  | nil => exact altPlain_length h
  | cons c r1 =>
    simp only [altDyn] at h
    by_cases h1 : (c == '(') = true
    · rw [if_pos h1] at h
      by_cases h2 : ((r1.dropWhile isSpaceChar).takeWhile isWordChar).isEmpty = true
      · rw [if_pos h2] at h
        exact altPlain_length h
      · rw [if_neg h2] at h
        split at h
        · exact altPlain_length h
        · rename_i c2 r4 heq
          split_ifs at h with h3
          · obtain ⟨-, hr⟩ := pair_some_inj h
            have e1 : (c2 :: r4).length ≤ (r1.dropWhile isSpaceChar).length := by
              rw [← heq]
              exact le_trans (dropWhile_length_le _ _) (dropWhile_length_le _ _)
            have e2 := dropWhile_length_le isSpaceChar r1
            rw [← hr]
            simp only [List.length_cons] at e1 ⊢
            omega
          · exact altPlain_length h
    · rw [if_neg h1] at h
      exact altPlain_length h

lemma altFs_length {s : List Char} {g : TokenGroups} {r : List Char}
    (h : altFs s = some (g, r)) : r.length ≤ s.length := by
  cases s with
  | nil => exact altDyn_length h
  | cons c r1 =>
    simp only [altFs] at h
    by_cases h1 : (c == '<') = true
    · rw [if_pos h1] at h
      by_cases h2 : ((r1.dropWhile isSpaceChar).takeWhile isWordChar).isEmpty = true
      · rw [if_pos h2] at h
        exact altDyn_length h
      · rw [if_neg h2] at h
        split at h
        · exact altDyn_length h
        · rename_i c2 r4 heq
          split_ifs at h with h3
          · obtain ⟨-, hr⟩ := pair_some_inj h
            have e1 : (c2 :: r4).length ≤ (r1.dropWhile isSpaceChar).length := by
              rw [← heq]
              exact le_trans (dropWhile_length_le _ _) (dropWhile_length_le _ _)
            have e2 := dropWhile_length_le isSpaceChar r1
            rw [← hr]
            simp only [List.length_cons] at e1 ⊢
            omega
          · exact altDyn_length h
    · rw [if_neg h1] at h
      exact altDyn_length h

lemma altData_length {s : List Char} {g : TokenGroups} {r : List Char}
    (h : altData s = some (g, r)) : r.length ≤ s.length := by
  unfold altData at h
  split at h
  · exact altFs_length h
  · rename_i r1 hci
    split at h
    · exact altFs_length h
    · rename_i c r2 heq2
      by_cases h1 : (c == '(') = true
      · rw [if_pos h1] at h
        by_cases h2 : ((r2.dropWhile isSpaceChar).takeWhile isWordChar).isEmpty = true
        · rw [if_pos h2] at h
          exact altFs_length h
        · rw [if_neg h2] at h
          split at h
          · exact altFs_length h
          · rename_i c2 r5 heq5
            split_ifs at h with h3
            · obtain ⟨-, hr⟩ := pair_some_inj h
              have e0 := matchCI_length hci
              have e1 : (c :: r2).length ≤ r1.length := by
                rw [← heq2]
                exact dropWhile_length_le _ _
              have e2 : (c2 :: r5).length ≤ (r2.dropWhile isSpaceChar).length := by
                rw [← heq5]
                exact le_trans (dropWhile_length_le _ _) (dropWhile_length_le _ _)
              have e3 := dropWhile_length_le isSpaceChar r2
              rw [← hr]
              simp only [List.length_cons] at e1 e2
              omega
            · exact altFs_length h
      · rw [if_neg h1] at h
        exact altFs_length h

lemma stripAt_length_le (s : List Char) : (stripAt s).length ≤ s.length := by
  cases s with
  | nil => exact le_refl _
  | cons c r =>
    simp only [stripAt]
    split_ifs
    · simp
    · exact le_refl _

lemma matchTargetToken_length {s : List Char} {g : TokenGroups} {r : List Char}
    (h : matchTargetToken s = some (g, r)) : r.length ≤ s.length := by
  unfold matchTargetToken at h
  exact le_trans (altData_length h)
    (le_trans (dropWhile_length_le _ _) (stripAt_length_le s))

lemma matchDeleteStmt_len {s : List Char} {g : TokenGroups} {len : Nat}
    (h : matchDeleteStmt s = some (g, len)) : 1 ≤ len ∧ len ≤ s.length := by
  unfold matchDeleteStmt at h
  simp only [Option.bind_eq_bind] at h
  rw [Option.bind_eq_some] at h
  obtain ⟨r1, e1, h⟩ := h
  rw [Option.bind_eq_some] at h
  obtain ⟨r2, e2, h⟩ := h
  rw [Option.bind_eq_some] at h
  obtain ⟨r3, e3, h⟩ := h
  rw [Option.bind_eq_some] at h
  obtain ⟨r4, e4, h⟩ := h
  rw [Option.bind_eq_some] at h
  obtain ⟨r5, e5, h⟩ := h
  rw [Option.bind_eq_some] at h
  obtain ⟨r6, e6, h⟩ := h
  rw [Option.bind_eq_some] at h
  obtain ⟨r7, e7, h⟩ := h
  rw [Option.bind_eq_some] at h
  obtain ⟨r8, e8, h⟩ := h
  rw [Option.bind_eq_some] at h
  obtain ⟨⟨g9, r9⟩, e9, h⟩ := h
  rw [Option.bind_eq_some] at h
  obtain ⟨⟨mid, rest⟩, e10, h⟩ := h
  have hlen := Option.some.inj h
  have l1 := matchCI_length e1
  have l2 := dropSpaces1_length e2
  have l3 := matchCI_length e3
  have l4 := dropSpaces1_length e4
  have l5 := matchCI_length e5
  have l6 := dropSpaces1_length e6
  have l7 := matchCI_length e7
  have l8 := dropSpaces1_length e8
  have l9 := matchTargetToken_length e9
  have l10 := splitAtDot_length e10
  have hg : s.length - rest.length = len := congrArg Prod.snd (Option.some.inj h)
  have k1 : ("delete".toList).length = 6 := rfl
  have k2 : ("adjacent".toList).length = 8 := rfl
  have k3 : ("duplicates".toList).length = 10 := rfl
  have k4 : ("from".toList).length = 4 := rfl
  have d10 : r9.length = mid.length + 1 + rest.length := l10
  have d9 : r9.length ≤ r8.length := l9
  omega

/-! ## Span invariants of the finditer drivers -/

lemma selFinditer_spans : ∀ (fuel : Nat) (prev : Option Char) (pos : Nat) (s : List Char),
    ∀ m ∈ selFinditer fuel prev pos s, pos ≤ m.1 ∧ m.1 < m.2.1 ∧ m.2.1 ≤ pos + s.length := by
  intro fuel
  induction fuel with
  | zero =>
    intro prev pos s m hm
    simp [selFinditer] at hm
  | succ fuel ih =>
    intro prev pos s m hm
    cases s with
    | nil => simp [selFinditer] at hm
    | cons c rest =>
      simp only [selFinditer] at hm
      by_cases hb : prevNonWord prev = true
      · rw [if_pos hb] at hm
        cases hms : matchSelectStmt (c :: rest) with
        | some len =>
          rw [hms] at hm
          obtain ⟨h1, h2⟩ := matchSelectStmt_len hms
          rcases List.mem_cons.mp hm with rfl | hm'
          · refine ⟨le_refl _, ?_, ?_⟩
            · show pos < pos + len
              omega
            · show pos + len ≤ pos + (c :: rest).length
              omega
          · obtain ⟨ha, hb', hc⟩ := ih _ _ _ _ hm'
            have hdl : ((c :: rest).drop len).length = (c :: rest).length - len :=
              List.length_drop len (c :: rest)
            refine ⟨by omega, hb', by omega⟩
        | none =>
          rw [hms] at hm
          obtain ⟨ha, hb', hc⟩ := ih _ _ _ _ hm
          have : (c :: rest).length = rest.length + 1 := by simp
          exact ⟨by omega, hb', by omega⟩
      · rw [if_neg hb] at hm
        obtain ⟨ha, hb', hc⟩ := ih _ _ _ _ hm
        have : (c :: rest).length = rest.length + 1 := by simp
        exact ⟨by omega, hb', by omega⟩

lemma extractSelects_spans {src : List Char} {c : SelRec} (hc : c ∈ extractSelects src) :
    c.start < c.endPos ∧ c.endPos ≤ src.length := by
  obtain ⟨m, hm, h1, h2, -, -⟩ := extractSelects_fields hc
  obtain ⟨-, hlt, hle⟩ := selFinditer_spans _ _ _ _ m hm
  rw [h1, h2]
  exact ⟨hlt, by simpa using hle⟩

lemma delFinditer_lb : ∀ (fuel : Nat) (prev : Option Char) (pos : Nat) (s : List Char),
    ∀ dm ∈ delFinditer fuel prev pos s, pos ≤ dm.start := by
  intro fuel
  induction fuel with
  | zero =>
    intro prev pos s dm hdm
    simp [delFinditer] at hdm
  | succ fuel ih =>
    intro prev pos s dm hdm
    cases s with
    | nil => simp [delFinditer] at hdm
    | cons c rest =>
      simp only [delFinditer] at hdm
      by_cases hb : prevNonWord prev = true
      · rw [if_pos hb] at hdm
        cases hms : matchDeleteStmt (c :: rest) with
        | some gl =>
          rw [hms] at hdm
          rcases List.mem_cons.mp hdm with rfl | hdm'
          · exact le_refl _
          · exact le_trans (Nat.le_add_right _ _) (ih _ _ _ _ hdm')
        | none =>
          rw [hms] at hdm
          exact le_trans (Nat.le_succ _) (ih _ _ _ _ hdm)
      · rw [if_neg hb] at hdm
        exact le_trans (Nat.le_succ _) (ih _ _ _ _ hdm)

lemma delFinditer_sorted : ∀ (fuel : Nat) (prev : Option Char) (pos : Nat) (s : List Char),
    (delFinditer fuel prev pos s).Pairwise (fun a b => a.start < b.start) := by
  intro fuel
  induction fuel with
  | zero =>
    intro prev pos s
    simp [delFinditer]
  | succ fuel ih =>
    intro prev pos s
    cases s with
    | nil => simp [delFinditer]
    | cons c rest =>
      simp only [delFinditer]
      by_cases hb : prevNonWord prev = true
      · rw [if_pos hb]
        cases hms : matchDeleteStmt (c :: rest) with
        | some gl =>
          obtain ⟨h1, -⟩ := matchDeleteStmt_len
            (show matchDeleteStmt (c :: rest) = some (gl.1, gl.2) from by rw [hms])
          refine List.Pairwise.cons ?_ (ih _ _ _)
          intro b hbmem
          have := delFinditer_lb _ _ _ _ b hbmem
          simp only
          omega
        | none => exact ih _ _ _
      · rw [if_neg hb]
        exact ih _ _ _

/-! ## Ordering of findings (C10) -/

lemma annotated_snd (g : DelMatch → Option Finding) : ∀ l : List DelMatch,
    (l.filterMap (fun dm => (g dm).map (fun f => (dm.start, f)))).map Prod.snd =
      l.filterMap g := by
  intro l
  induction l with
  | nil => rfl
  | cons dm rest ih =>
    cases hg : g dm with
    | none => simp [List.filterMap_cons, hg, ih]
    | some f => simp [List.filterMap_cons, hg, ih]

lemma annotated_fst_sorted (g : DelMatch → Option Finding) : ∀ l : List DelMatch,
    l.Pairwise (fun a b => a.start < b.start) →
    ((l.filterMap (fun dm => (g dm).map (fun f => (dm.start, f)))).map Prod.fst).Pairwise
      (fun a b => a < b) := by
  intro l
  induction l with
  | nil => intro _; simp
  | cons dm rest ih =>
    intro h
    obtain ⟨hhead, htail⟩ := List.pairwise_cons.mp h
    cases hg : g dm with
    | none =>
      simp only [List.filterMap_cons, hg]
      exact ih htail
    | some f =>
      simp only [List.filterMap_cons, hg, Option.map_some', List.map_cons]
      refine List.Pairwise.cons ?_ (ih htail)
      intro y hy
      obtain ⟨⟨a, f'⟩, hmem, rfl⟩ := List.mem_map.mp hy
      obtain ⟨dm', hdm', hsome⟩ := List.mem_filterMap.mp hmem
      obtain ⟨f'', -, hpair⟩ := Option.map_eq_some'.mp hsome
      have ha : dm'.start = a := congrArg Prod.fst hpair
      simp only
      rw [← ha]
      exact hhead dm' hdm'

/-- C10: within one unit, findings appear in the order of the deduplication
statements that triggered them: the instrumented scan pairs each finding with
its DELETE statement's start offset, projects back to exactly the findings
list, and those offsets are strictly increasing. -/
theorem C10_ordering (u : Unit) :
    scanFindings u = (scanAnnotated u).map Prod.snd ∧
    ((scanAnnotated u).map Prod.fst).Pairwise (fun a b => a < b) := by
  constructor
  · exact (annotated_snd _ _).symm
  · exact annotated_fst_sorted _ _ (delFinditer_sorted _ _ _ _)

/-! ## Snippet geometry (C3, C4) -/

lemma takeWhile_append_all {p : Char → Bool} :
    ∀ {l1 : List Char}, (∀ c ∈ l1, p c = true) → ∀ l2 : List Char,
      (l1 ++ l2).takeWhile p = l1 ++ l2.takeWhile p := by
  intro l1
  induction l1 with
  | nil => intro _ l2; simp
  | cons a l ih =>
    intro h l2
    rw [List.cons_append, List.takeWhile_cons, h a (List.mem_cons_self a l),
      if_pos rfl, ih (fun c hc => h c (List.mem_cons_of_mem a hc)) l2, List.cons_append]

lemma dropWhile_append_all {p : Char → Bool} :
    ∀ {l1 : List Char}, (∀ c ∈ l1, p c = true) → ∀ l2 : List Char,
      (l1 ++ l2).dropWhile p = l2.dropWhile p := by
  intro l1
  induction l1 with
  | nil => intro _ l2; simp
  | cons a l ih =>
    intro h l2
    rw [List.cons_append, List.dropWhile_cons, h a (List.mem_cons_self a l),
      if_pos rfl, ih (fun c hc => h c (List.mem_cons_of_mem a hc)) l2]

lemma lineEndIdx_eq {text : List Char} {start stop : Nat} (h1 : start ≤ stop)
    (h2 : stop ≤ text.length) (h3 : countNL ((text.take stop).drop start) = 0) :
    lineEndIdx text start = lineEndIdx text stop := by
  have hnot : '\n' ∉ (text.take stop).drop start := List.count_eq_zero.mp h3
  have hseg : ∀ c ∈ (text.take stop).drop start, (c != '\n') = true := by
    intro c hc
    exact bne_iff_ne.mpr (fun he => hnot (he ▸ hc))
  have htl : (text.take stop).length = stop := by
    rw [List.length_take]
    omega
  have hdecomp : text.drop start = (text.take stop).drop start ++ text.drop stop := by
    conv_lhs => rw [← List.take_append_drop stop text]
    rw [List.drop_append_eq_append_drop, htl]
    have hz : start - stop = 0 := by omega
    rw [hz, List.drop_zero]
  have hseglen : ((text.take stop).drop start).length = stop - start := by
    rw [List.length_drop, htl]
  unfold lineEndIdx
  rw [hdecomp, takeWhile_append_all hseg]
  rw [List.length_append, hseglen]
  omega

/-- When the matched span contains no newline, the snippet really is the
single physical line containing the span's start. -/
lemma get_line_snippet_single {text : List Char} {start stop : Nat} (h1 : start ≤ stop)
    (h2 : stop ≤ text.length) (h3 : countNL ((text.take stop).drop start) = 0) :
    get_line_snippet text start stop = physLineAt text start := by
  unfold get_line_snippet physLineAt
  rw [lineEndIdx_eq h1 h2 h3]

lemma build_snippet (u : Unit) (itab : List Char) (a b d1 d2 : Nat) :
    (build_finding_for_pair u itab a b d1 d2).snippet =
      escapeNL (get_line_snippet (unitSrc u) a b) := rfl

lemma build_starting (u : Unit) (itab : List Char) (a b d1 d2 : Nat) :
    (build_finding_for_pair u itab a b d1 d2).starting_line =
      unitBase u + ((countNL ((unitSrc u).take a) + 1 : Nat) : Int) := rfl

lemma build_ending (u : Unit) (itab : List Char) (a b d1 d2 : Nat) :
    (build_finding_for_pair u itab a b d1 d2).ending_line =
      unitBase u + ((countNL ((unitSrc u).take a) + 1 : Nat) : Int) +
        ((countNL (get_line_snippet (unitSrc u) a b) + 1 : Nat) : Int) := rfl

def exC3unit : Unit :=
  { pgm_name := "ZP3".toList, inc_name := "ZI3".toList, type := "PROG".toList,
    name := none, start_line := some 0, end_line := some 3,
    code := some ("SELECT * FROM t\n INTO TABLE @lt_tab.\nDELETE ADJACENT DUPLICATES FROM lt_tab.".toList),
    findings := none }

/-- C3 (counterexample): for a query statement spanning two physical lines,
the produced snippet is not the single physical line containing the query's
start offset — it runs to the newline after the statement's END offset. -/
theorem C3_counterexample :
    (scanFindings exC3unit).length = 1 ∧
    (extractSelects (unitSrc exC3unit)).map SelRec.start = [0] ∧
    physLineAt (unitSrc exC3unit) 0 = "SELECT * FROM t".toList ∧
    (scanFindings exC3unit).headI.snippet =
      "SELECT * FROM t\\n INTO TABLE @lt_tab.".toList ∧
    (scanFindings exC3unit).headI.snippet ≠
      escapeNL (physLineAt (unitSrc exC3unit) 0) := by
  decide

/-- C3 (amended): for every produced Finding, the snippet is the (escaped)
text from the character after the previous newline before the matched query's
start offset up to the next newline at or after the query's END offset; when
the matched query statement contains no newline this is exactly the single
physical line containing its start offset. -/
theorem C3_line_snippet (u : Unit) (f : Finding) (hf : f ∈ scanFindings u) :
    ∃ c ∈ extractSelects (unitSrc u),
      f.snippet = escapeNL (get_line_snippet (unitSrc u) c.start c.endPos) ∧
      (countNL (((unitSrc u).take c.endPos).drop c.start) = 0 →
        f.snippet = escapeNL (physLineAt (unitSrc u) c.start)) := by
  obtain ⟨c, hmem, -, dm, -, -, heq⟩ := finding_origin u f hf
  obtain ⟨hlt, hle⟩ := extractSelects_spans hmem
  refine ⟨c, hmem, ?_, ?_⟩
  · rw [heq, build_snippet]
  · intro h0
    rw [heq, build_snippet, get_line_snippet_single (le_of_lt hlt) hle h0]

def exC3wunit : Unit :=
  { pgm_name := "ZP3W".toList, inc_name := "ZI3W".toList, type := "PROG".toList,
    name := none, start_line := some 5, end_line := some 8,
    code := some ("SELECT * FROM w3 INTO TABLE @lt_w3.\nDELETE ADJACENT DUPLICATES FROM lt_w3.".toList),
    findings := none }

theorem C3_line_snippet_witness :
    ((scanFindings exC3wunit).headI ∈ scanFindings exC3wunit) ∧
    (∃ c ∈ extractSelects (unitSrc exC3wunit),
      (scanFindings exC3wunit).headI.snippet =
        escapeNL (get_line_snippet (unitSrc exC3wunit) c.start c.endPos) ∧
      (countNL (((unitSrc exC3wunit).take c.endPos).drop c.start) = 0 →
        (scanFindings exC3wunit).headI.snippet =
          escapeNL (physLineAt (unitSrc exC3wunit) c.start))) :=
  ⟨by decide, C3_line_snippet exC3wunit (scanFindings exC3wunit).headI (by decide)⟩

def exC4unit : Unit :=
  { pgm_name := "ZP4".toList, inc_name := "ZI4".toList, type := "PROG".toList,
    name := none, start_line := some 200, end_line := some 202,
    code := some ("SELECT * FROM t INTO TABLE @lt_tab.\nDELETE ADJACENT DUPLICATES FROM lt_tab.".toList),
    findings := none }

/-- C4 (counterexample): for a one-physical-line snippet (zero newlines
inside it), the produced ending line is starting + 1, not
starting + (number of newlines inside the snippet) = starting + 0 as the
claim's general formula states. -/
theorem C4_counterexample :
    (scanFindings exC4unit).length = 1 ∧
    (extractSelects (unitSrc exC4unit)).map (fun c => (c.start, c.endPos)) = [(0, 35)] ∧
    (scanFindings exC4unit).headI.starting_line = 201 ∧
    (scanFindings exC4unit).headI.ending_line = 202 ∧
    countNL (get_line_snippet (unitSrc exC4unit) 0 35) = 0 ∧
    (scanFindings exC4unit).headI.ending_line ≠
      (scanFindings exC4unit).headI.starting_line +
        (countNL (get_line_snippet (unitSrc exC4unit) 0 35) : Int) := by
  decide

/-- C4 (amended): the absolute starting line is the unit's offset plus the
1-based line of the query's start (one plus the newlines strictly before it),
and the ending line is the starting line plus the number of newlines inside
the snippet plus one (the snippet's physical line count, an
inclusive-exclusive convention), so a one-line snippet gives
ending = starting + 1. -/
theorem C4_line_numbers (u : Unit) (f : Finding) (hf : f ∈ scanFindings u) :
    ∃ c ∈ extractSelects (unitSrc u),
      f.starting_line = unitBase u + (countNL ((unitSrc u).take c.start) : Int) + 1 ∧
      f.ending_line = f.starting_line +
        (countNL (get_line_snippet (unitSrc u) c.start c.endPos) : Int) + 1 := by
  obtain ⟨c, hmem, -, dm, -, -, heq⟩ := finding_origin u f hf
  refine ⟨c, hmem, ?_, ?_⟩
  · rw [heq, build_starting]
    push_cast
    ring
  · rw [heq, build_ending, build_starting]
    push_cast
    ring

def exC4wunit : Unit :=
  { pgm_name := "ZP4W".toList, inc_name := "ZI4W".toList, type := "PROG".toList,
    name := none, start_line := some 300, end_line := some 303,
    code := some ("SELECT * FROM w4 INTO TABLE @lt_w4.\nDELETE ADJACENT DUPLICATES FROM lt_w4.".toList),
    findings := none }

theorem C4_line_numbers_witness :
    ((scanFindings exC4wunit).headI ∈ scanFindings exC4wunit) ∧
    (∃ c ∈ extractSelects (unitSrc exC4wunit),
      (scanFindings exC4wunit).headI.starting_line =
        unitBase exC4wunit + (countNL ((unitSrc exC4wunit).take c.start) : Int) + 1 ∧
      (scanFindings exC4wunit).headI.ending_line =
        (scanFindings exC4wunit).headI.starting_line +
          (countNL (get_line_snippet (unitSrc exC4wunit) c.start c.endPos) : Int) + 1) :=
  ⟨by decide, C4_line_numbers exC4wunit (scanFindings exC4wunit).headI (by decide)⟩

/-! ## Target resolution across the four token shapes (C6) -/

lemma word_not_space {c : Char} (h : isWordChar c = true) : isSpaceChar c = false := by
  cases hs : isSpaceChar c with
  | false => rfl
  | true =>
    exfalso
    simp only [isSpaceChar, Bool.or_eq_true, beq_iff_eq] at hs
    rcases hs with ((((rfl | rfl) | rfl) | rfl) | rfl) | rfl <;> exact absurd h (by decide)

lemma word_head_ne {c d : Char} (h : isWordChar c = true) (hd : isWordChar d = false) :
    (c == d) = false := by
  cases hcd : c == d with
  | false => rfl
  | true =>
    obtain rfl := eq_of_beq hcd
    rw [h] at hd
    exact absurd hd (by simp)

lemma takeWhile_all {p : Char → Bool} {l : List Char} (h : ∀ c ∈ l, p c = true) :
    l.takeWhile p = l := by
  have := takeWhile_append_all h []
  simpa using this

lemma dropWhile_all {p : Char → Bool} {l : List Char} (h : ∀ c ∈ l, p c = true) :
    l.dropWhile p = [] := by
  have := dropWhile_append_all h []
  simpa using this

lemma stripAt_word {a : Char} {l : List Char} (h : isWordChar a = true) :
    stripAt (a :: l) = a :: l := by
  simp only [stripAt, word_head_ne h (show isWordChar '@' = false by decide)]
  simp

lemma dropWhile_space_word {a : Char} {l : List Char} (h : isWordChar a = true) :
    (a :: l).dropWhile isSpaceChar = a :: l := by
  rw [List.dropWhile_cons, word_not_space h]
  simp

lemma altData_concrete (X : List Char) :
    altData ('D' :: 'A' :: 'T' :: 'A' :: '(' :: X) =
      (let r3 := X.dropWhile isSpaceChar
       let w := r3.takeWhile isWordChar
       let r4 := (r3.dropWhile isWordChar).dropWhile isSpaceChar
       if w.isEmpty then altFs ('D' :: 'A' :: 'T' :: 'A' :: '(' :: X)
       else
         match r4 with
         | [] => altFs ('D' :: 'A' :: 'T' :: 'A' :: '(' :: X)
         | c2 :: r5 =>
           if c2 == ')' then some ({ noGroups with data := some w }, r5)
           else altFs ('D' :: 'A' :: 'T' :: 'A' :: '(' :: X)) := rfl

lemma altFs_concrete (X : List Char) :
    altFs ('<' :: X) =
      (let r2 := X.dropWhile isSpaceChar
       let w := r2.takeWhile isWordChar
       let r3 := (r2.dropWhile isWordChar).dropWhile isSpaceChar
       if w.isEmpty then altDyn ('<' :: X)
       else
         match r3 with
         | [] => altDyn ('<' :: X)
         | c2 :: r4 =>
           if c2 == '>' then some ({ noGroups with fs := some w }, r4)
           else altDyn ('<' :: X)) := rfl

lemma altDyn_concrete (X : List Char) :
    altDyn ('(' :: X) =
      (let r2 := X.dropWhile isSpaceChar
       let w := r2.takeWhile isWordChar
       let r3 := (r2.dropWhile isWordChar).dropWhile isSpaceChar
       if w.isEmpty then altPlain ('(' :: X)
       else
         match r3 with
         | [] => altPlain ('(' :: X)
         | c2 :: r4 =>
           if c2 == ')' then some ({ noGroups with dyn := some w }, r4)
           else altPlain ('(' :: X)) := rfl

lemma altData_fsHead (X : List Char) : altData ('<' :: X) = altFs ('<' :: X) := rfl

lemma altData_dynHead (X : List Char) : altData ('(' :: X) = altFs ('(' :: X) := rfl

lemma altFs_dynHead (X : List Char) : altFs ('(' :: X) = altDyn ('(' :: X) := rfl

lemma altData_plain_word {w : List Char} (hall : ∀ c ∈ w, isWordChar c = true) :
    altData w = altFs w := by
  cases hci : matchCI "data".toList w with
  | none =>
    unfold altData
    rw [hci]
  | some r =>
    obtain ⟨pre, hpre⟩ := matchCI_suffix hci
    have hrall : ∀ c ∈ r, isWordChar c = true := fun c hc =>
      hall c (hpre ▸ List.mem_append_right pre hc)
    cases r with
    | nil =>
      unfold altData
      rw [hci]
      rfl
    | cons b r' =>
      have hb : isWordChar b = true := hrall b (List.mem_cons_self _ _)
      have hbne : (b == '(') = false :=
        word_head_ne hb (show isWordChar '(' = false by decide)
      unfold altData
      rw [hci]
      show (match (b :: r').dropWhile isSpaceChar with
            | [] => altFs w
            | c :: r2 =>
              if c == '(' then
                let r3 := r2.dropWhile isSpaceChar
                let w2 := r3.takeWhile isWordChar
                let r4 := (r3.dropWhile isWordChar).dropWhile isSpaceChar
                if w2.isEmpty then altFs w
                else
                  match r4 with
                  | [] => altFs w
                  | c2 :: r5 =>
                    if c2 == ')' then some ({ noGroups with data := some w2 }, r5)
                    else altFs w
              else altFs w) = altFs w
      rw [dropWhile_space_word hb]
      simp [hbne]

lemma altFs_plain_word {w : List Char} (hw : w ≠ []) (hall : ∀ c ∈ w, isWordChar c = true) :
    altFs w = altDyn w := by
  obtain ⟨a, w', rfl⟩ := List.exists_cons_of_ne_nil hw
  have ha : isWordChar a = true := hall a (List.mem_cons_self _ _)
  have hne : (a == '<') = false := word_head_ne ha (show isWordChar '<' = false by decide)
  simp only [altFs, hne]
  simp

lemma altDyn_plain_word {w : List Char} (hw : w ≠ []) (hall : ∀ c ∈ w, isWordChar c = true) :
    altDyn w = altPlain w := by
  obtain ⟨a, w', rfl⟩ := List.exists_cons_of_ne_nil hw
  have ha : isWordChar a = true := hall a (List.mem_cons_self _ _)
  have hne : (a == '(') = false := word_head_ne ha (show isWordChar '(' = false by decide)
  simp only [altDyn, hne]
  simp

lemma altPlain_word {w : List Char} (hw : w ≠ []) (hall : ∀ c ∈ w, isWordChar c = true) :
    altPlain w = some ({ noGroups with plain := some w }, []) := by
  have ht : w.takeWhile isWordChar = w := takeWhile_all hall
  have hd : w.dropWhile isWordChar = [] := dropWhile_all hall
  obtain ⟨a, w', rfl⟩ := List.exists_cons_of_ne_nil hw
  simp only [altPlain, ht, hd]
  simp

lemma canon_cons (a : Char) (l : List Char) :
    canon_name (coalesce_group { noGroups with plain := some (a :: l) }) =
      some ((a :: l).map Char.toLower) := rfl

lemma canon_cons_data (a : Char) (l : List Char) :
    canon_name (coalesce_group { noGroups with data := some (a :: l) }) =
      some ((a :: l).map Char.toLower) := rfl

lemma canon_cons_fs (a : Char) (l : List Char) :
    canon_name (coalesce_group { noGroups with fs := some (a :: l) }) =
      some ((a :: l).map Char.toLower) := rfl

lemma canon_cons_dyn (a : Char) (l : List Char) :
    canon_name (coalesce_group { noGroups with dyn := some (a :: l) }) =
      some ((a :: l).map Char.toLower) := rfl

lemma tokenResolve_shapePlain {w : List Char} (hw : w ≠ [])
    (hall : ∀ c ∈ w, isWordChar c = true) :
    tokenResolve (shapePlain w) = some (w.map Char.toLower) := by
  obtain ⟨a, w', rfl⟩ := List.exists_cons_of_ne_nil hw
  have ha : isWordChar a = true := hall a (List.mem_cons_self _ _)
  have h3 : matchTargetToken (a :: w') =
      some ({ noGroups with plain := some (a :: w') }, []) := by
    unfold matchTargetToken
    rw [stripAt_word ha, dropWhile_space_word ha, altData_plain_word hall,
      altFs_plain_word (by simp) hall, altDyn_plain_word (by simp) hall,
      altPlain_word (by simp) hall]
  unfold tokenResolve shapePlain
  rw [h3]
  exact canon_cons a w'

lemma tokenResolve_shapeData {w : List Char} (hw : w ≠ [])
    (hall : ∀ c ∈ w, isWordChar c = true) :
    tokenResolve (shapeData w) = some (w.map Char.toLower) := by
  obtain ⟨a, w', rfl⟩ := List.exists_cons_of_ne_nil hw
  have ha : isWordChar a = true := hall a (List.mem_cons_self _ _)
  have hsh : shapeData (a :: w') = 'D' :: 'A' :: 'T' :: 'A' :: '(' :: ((a :: w') ++ [')']) := rfl
  have hX : ((a :: w') ++ [')']).dropWhile isSpaceChar = (a :: w') ++ [')'] := by
    rw [List.cons_append, dropWhile_space_word ha]
  have htw : ((a :: w') ++ [')']).takeWhile isWordChar = a :: w' := by
    rw [takeWhile_append_all hall]
    have h0 : ([')'] : List Char).takeWhile isWordChar = [] := rfl
    rw [h0, List.append_nil]
  have hdw : ((a :: w') ++ [')']).dropWhile isWordChar = [')'] := by
    rw [dropWhile_append_all hall]
    rfl
  have hmt : matchTargetToken (shapeData (a :: w')) =
      some ({ noGroups with data := some (a :: w') }, []) := by
    unfold matchTargetToken
    rw [hsh]
    have hstrip : stripAt ('D' :: 'A' :: 'T' :: 'A' :: '(' :: ((a :: w') ++ [')'])) =
        'D' :: 'A' :: 'T' :: 'A' :: '(' :: ((a :: w') ++ [')']) := rfl
    have hsp : ('D' :: 'A' :: 'T' :: 'A' :: '(' :: ((a :: w') ++ [')'])).dropWhile isSpaceChar =
        'D' :: 'A' :: 'T' :: 'A' :: '(' :: ((a :: w') ++ [')']) := rfl
    rw [hstrip, hsp, altData_concrete]
    simp only [hX, htw, hdw]
    simp
    rfl
  unfold tokenResolve
  rw [hmt]
  exact canon_cons_data a w'

lemma tokenResolve_shapeFs {w : List Char} (hw : w ≠ [])
    (hall : ∀ c ∈ w, isWordChar c = true) :
    tokenResolve (shapeFs w) = some (w.map Char.toLower) := by
  obtain ⟨a, w', rfl⟩ := List.exists_cons_of_ne_nil hw
  have ha : isWordChar a = true := hall a (List.mem_cons_self _ _)
  have hsh : shapeFs (a :: w') = '<' :: ((a :: w') ++ ['>']) := rfl
  have hX : ((a :: w') ++ ['>']).dropWhile isSpaceChar = (a :: w') ++ ['>'] := by
    rw [List.cons_append, dropWhile_space_word ha]
  have htw : ((a :: w') ++ ['>']).takeWhile isWordChar = a :: w' := by
    rw [takeWhile_append_all hall]
    have h0 : (['>'] : List Char).takeWhile isWordChar = [] := rfl
    rw [h0, List.append_nil]
  have hdw : ((a :: w') ++ ['>']).dropWhile isWordChar = ['>'] := by
    rw [dropWhile_append_all hall]
    rfl
  have hmt : matchTargetToken (shapeFs (a :: w')) =
      some ({ noGroups with fs := some (a :: w') }, []) := by
    unfold matchTargetToken
    rw [hsh]
    have hstrip : stripAt ('<' :: ((a :: w') ++ ['>'])) = '<' :: ((a :: w') ++ ['>']) := rfl
    have hsp : ('<' :: ((a :: w') ++ ['>'])).dropWhile isSpaceChar =
        '<' :: ((a :: w') ++ ['>']) := rfl
    rw [hstrip, hsp, altData_fsHead, altFs_concrete]
    simp only [hX, htw, hdw]
    simp
    rfl
  unfold tokenResolve
  rw [hmt]
  exact canon_cons_fs a w'

lemma tokenResolve_shapeDyn {w : List Char} (hw : w ≠ [])
    (hall : ∀ c ∈ w, isWordChar c = true) :
    tokenResolve (shapeDyn w) = some (w.map Char.toLower) := by
  obtain ⟨a, w', rfl⟩ := List.exists_cons_of_ne_nil hw
  have ha : isWordChar a = true := hall a (List.mem_cons_self _ _)
  have hsh : shapeDyn (a :: w') = '(' :: ((a :: w') ++ [')']) := rfl
  have hX : ((a :: w') ++ [')']).dropWhile isSpaceChar = (a :: w') ++ [')'] := by
    rw [List.cons_append, dropWhile_space_word ha]
  have htw : ((a :: w') ++ [')']).takeWhile isWordChar = a :: w' := by
    rw [takeWhile_append_all hall]
    have h0 : ([')'] : List Char).takeWhile isWordChar = [] := rfl
    rw [h0, List.append_nil]
  have hdw : ((a :: w') ++ [')']).dropWhile isWordChar = [')'] := by
    rw [dropWhile_append_all hall]
    rfl
  have hmt : matchTargetToken (shapeDyn (a :: w')) =
      some ({ noGroups with dyn := some (a :: w') }, []) := by
    unfold matchTargetToken
    rw [hsh]
    have hstrip : stripAt ('(' :: ((a :: w') ++ [')'])) = '(' :: ((a :: w') ++ [')']) := rfl
    have hsp : ('(' :: ((a :: w') ++ [')'])).dropWhile isSpaceChar =
        '(' :: ((a :: w') ++ [')']) := rfl
    rw [hstrip, hsp, altData_dynHead, altFs_dynHead, altDyn_concrete]
    simp only [hX, htw, hdw]
    simp
    rfl
  unfold tokenResolve
  rw [hmt]
  exact canon_cons_dyn a w'

/-- C6: target resolution is invariant under letter case and under the four
accepted token shapes: any spelling of a (word-character) identifier in any
of the four shapes resolves to the same case-folded canonical identifier, so
two statements naming the same identifier in different spellings compare
equal during pairing. -/
theorem C6_target_resolution (w1 w2 : List Char) (h1 : w1 ≠ []) (h2 : w2 ≠ [])
    (ha1 : ∀ c ∈ w1, isWordChar c = true) (ha2 : ∀ c ∈ w2, isWordChar c = true)
    (hlow : w1.map Char.toLower = w2.map Char.toLower) :
    ∀ s1 ∈ [shapeData, shapeFs, shapeDyn, shapePlain],
      ∀ s2 ∈ [shapeData, shapeFs, shapeDyn, shapePlain],
        tokenResolve (s1 w1) = some (w1.map Char.toLower) ∧
        tokenResolve (s1 w1) = tokenResolve (s2 w2) := by
  have key : ∀ s ∈ [shapeData, shapeFs, shapeDyn, shapePlain],
      ∀ w : List Char, w ≠ [] → (∀ c ∈ w, isWordChar c = true) →
        tokenResolve (s w) = some (w.map Char.toLower) := by
    intro s hs w hw hall
    simp only [List.mem_cons, List.not_mem_nil, or_false] at hs
    rcases hs with rfl | rfl | rfl | rfl
    · exact tokenResolve_shapeData hw hall
    · exact tokenResolve_shapeFs hw hall
    · exact tokenResolve_shapeDyn hw hall
    · exact tokenResolve_shapePlain hw hall
  intro s1 hs1 s2 hs2
  have r1 := key s1 hs1 w1 h1 ha1
  have r2 := key s2 hs2 w2 h2 ha2
  exact ⟨r1, by rw [r1, r2, hlow]⟩

theorem C6_target_resolution_witness :
    ("LT_TAB".toList ≠ ([] : List Char)) ∧
    ("lt_tab".toList ≠ ([] : List Char)) ∧
    (∀ c ∈ "LT_TAB".toList, isWordChar c = true) ∧
    (∀ c ∈ "lt_tab".toList, isWordChar c = true) ∧
    "LT_TAB".toList.map Char.toLower = "lt_tab".toList.map Char.toLower ∧
    shapeData ∈ [shapeData, shapeFs, shapeDyn, shapePlain] ∧
    shapeFs ∈ [shapeData, shapeFs, shapeDyn, shapePlain] ∧
    (tokenResolve (shapeData "LT_TAB".toList) =
        some ("LT_TAB".toList.map Char.toLower) ∧
      tokenResolve (shapeData "LT_TAB".toList) = tokenResolve (shapeFs "lt_tab".toList)) :=
  ⟨by decide, by decide, by decide, by decide, by decide,
    List.mem_cons_self _ _, List.mem_cons_of_mem _ (List.mem_cons_self _ _),
    C6_target_resolution "LT_TAB".toList "lt_tab".toList (by decide) (by decide)
      (by decide) (by decide) (by decide) shapeData (List.mem_cons_self _ _)
      shapeFs (List.mem_cons_of_mem _ (List.mem_cons_self _ _))⟩

end Rule727
